import Mathlib

/-!
# The threaded-dispatch handler `interpreter::a_not_equal`

Shallow embedding of `machine/interpreter/a_not_equal.cpp`:

    intptr_t a_not_equal(STATE, CallFrame* call_frame, intptr_t const opcodes[]) {
      instructions::a_not_equal(state, call_frame, argument(0), argument(1));
      call_frame->next_ip(instructions::data_a_not_equal.width);
      return ((instructions::Instruction)opcodes[call_frame->ip()])(state, call_frame, opcodes);
    }

Conventions of the embedding.

* `intptr_t` and the instruction pointer are unbounded integers (`Int`); signed
  overflow is undefined in the source and is not modelled.
* The opcode stream is a `List Word`; reading a slot outside the list is
  undefined in the source and is the fault `Fault.outOfBounds` here.
* `State*` and `CallFrame*` are passed explicitly: a callee that may write
  through the pointers returns the memory it leaves behind.
* The semantic operation `instructions::a_not_equal` is a parameter of the
  handler, and so is the resolution of a stream word to the handler it is
  the entry point of (the cast `(instructions::Instruction)opcodes[...]`).
* `interpreter.a_not_equal` is the handler with a call of the semantic
  operation that returns; `interpreter.a_not_equal_unwinding` is the handler
  with a call that may also raise, and agrees with the former on every call
  that completes.
-/

namespace rubinius

/-- One slot of an opcode stream, an `intptr_t`. -/
abbrev Word := Int

/-- Ways in which an execution leaves the defined behaviour of the model:
a stream slot outside the stream is read, a word that is no handler entry point
is called, a handler that this development does not embed is called, or the
bound on the number of handler activations is exhausted. -/
inductive Fault where
  | outOfBounds
  | unresolved
  | unmodelled
  | outOfFuel
deriving DecidableEq

/-- The array read `opcodes[i]`. -/
def fetch (opcodes : List Word) (i : Int) : Except Fault Word :=
  if 0 ≤ i then
    match opcodes[i.toNat]? with
    | some w => .ok w
    | none => .error .outOfBounds
  else .error .outOfBounds

/-- Modelled from the spec: the declaration of `CallFrame` is not part of the
sources at hand.  Section 3 (Execution Context) lists its attributes: the
instruction pointer (an index into the owning opcode stream), the operand
storage (stack and register file), the reference to the method being executed,
the reference to the caller's context, and a flag set. -/
structure CallFrame (Val : Type) where
  ip : Int
  stack : List Val
  registers : List Val
  method : Nat
  previous : Option Nat
  flags : Nat
deriving DecidableEq

namespace CallFrame

variable {Val : Type}

/-- Modelled from the spec: `CallFrame::next_ip(width)`, declared with the
missing `CallFrame`; section 4.1 step 1, "advance the context's instruction
pointer by this opcode's fixed encoded width". -/
def next_ip (call_frame : CallFrame Val) (width : Int) : CallFrame Val :=
  { call_frame with ip := call_frame.ip + width }

/-- Modelled from the spec: the operand slot of the register file that an
operand word names, if the frame has such a slot. -/
def reg (call_frame : CallFrame Val) (r : Word) : Option Val :=
  if 0 ≤ r then call_frame.registers[r.toNat]? else none

/-- Modelled from the spec: pushing a value on the operand stack. -/
def push (call_frame : CallFrame Val) (v : Val) : CallFrame Val :=
  { call_frame with stack := v :: call_frame.stack }

end CallFrame

/-- Modelled from the spec: the macro `argument(n)` is not part of the sources
at hand.  Section 8 lays an instruction out as the segment `[op, operand...]`
starting at the instruction pointer, so operand `n` is the slot
`call_frame->ip() + n + 1`. -/
def argumentSlot {Val : Type} (call_frame : CallFrame Val) (n : Int) : Int :=
  call_frame.ip + n + 1

/-- Modelled from the spec: the read `argument(n)` of the missing macro, that is
`opcodes[call_frame->ip() + n + 1]`. -/
def argument {Val : Type} (opcodes : List Word) (call_frame : CallFrame Val) (n : Int) :
    Except Fault Word :=
  fetch opcodes (argumentSlot call_frame n)

/-- Modelled from the spec: the two control states in which a context leaves
its dispatch chain (section 4.3, state machine of a context). -/
inductive Status where
  | returning
  | unwinding
deriving DecidableEq

/-- The opcodes of the instruction set: `a_not_equal` from the source, the
return opcode of section 4.3, and any further opcode, of which the handler table
records an identity, the declared width of its encoding and whether its handler
leaves the stream instead of dispatching the encoding that follows (section 3,
Handler Table). -/
inductive Opcode where
  | a_not_equal
  | ret
  | other (id width : Nat) (leaves : Bool)
deriving DecidableEq

/-- What the caller of a handler chain observes when the chain hands control
back: the control state, the machine state and the call frame as the chain left
them, and (a ghost record kept by `link`) the handlers that were executed, in
execution order. -/
structure Exit (σ Val : Type) where
  status : Status
  state : σ
  frame : CallFrame Val
  executed : List Opcode
deriving DecidableEq

/-- Ghost bookkeeping: record that the handler of `op` ran before the rest. -/
def Exit.ran {σ Val : Type} (op : Opcode) (e : Exit σ Val) : Exit σ Val :=
  { e with executed := op :: e.executed }

/-- The type `instructions::Instruction` of a handler, as the source uses it:
a function of the state, the call frame and the opcode stream.  The `intptr_t`
it returns, together with the memory it leaves behind its two pointer
arguments, is the `Exit`; an execution that leaves defined behaviour is a
`Fault`. -/
abbrev Instruction (σ Val : Type) :=
  σ → CallFrame Val → List Word → Except Fault (Exit σ Val)

/-- What a call of a semantic operation that returns leaves behind: the value
it hands back, which the handler discards, and the machine state and call frame
it wrote through its pointer arguments. -/
structure SemResult (σ Val : Type) where
  ok : Bool
  state : σ
  frame : CallFrame Val

/-- A semantic operation with the signature of `instructions::a_not_equal`:
it receives the state, the call frame and the two operand words. -/
abbrev Semantics (σ Val : Type) :=
  σ → CallFrame Val → Word → Word → SemResult σ Val

/-- Modelled from the spec: how a call of a semantic operation ends.  Sections
4.1 and 7 (c): semantics that fail raise a failure, which is signalled "through
the unwind path, not through a normal return".  So a call either completes, by a
normal return, or raises, by a non-local exit; in both cases it leaves behind
the memory it wrote through its pointer arguments. -/
inductive SemOutcome (σ Val : Type) where
  | completed (r : SemResult σ Val)
  | raised (state : σ) (frame : CallFrame Val)

/-- A semantic operation with the signature of `instructions::a_not_equal`
whose call may raise. -/
abbrev RaisingSemantics (σ Val : Type) :=
  σ → CallFrame Val → Word → Word → SemOutcome σ Val

namespace instructions

/-- The per-opcode record `instructions::data_<op>`; only `width` is used. -/
structure InstructionData where
  width : Int
deriving DecidableEq

/-- Modelled from the spec: the constant `instructions::data_a_not_equal` is not
part of the sources at hand.  The declared width of an opcode is the length of
its segment `[op, operand...]` (section 8); `a_not_equal` has the two operands
`argument(0)` and `argument(1)`. -/
def data_a_not_equal : InstructionData := ⟨3⟩

/-- Modelled from the spec: the width record of the return opcode, whose
encoding is the opcode slot alone (section 8, "a stream of length equal to
exactly one return opcode"). -/
def data_ret : InstructionData := ⟨1⟩

/-- Modelled from the spec: the semantic operation `instructions::a_not_equal`
(header `instructions/a_not_equal.hpp`) is not part of the sources at hand.
Section 8: with the two operand slots holding equal values a "false" result is
pushed, with unequal values "true".  When an operand word names no slot of the
frame nothing is pushed: the frame is left as it was and the value handed back
is `false`. -/
def a_not_equal {σ Val : Type} [DecidableEq Val] (qtrue qfalse : Val) : Semantics σ Val :=
  fun state call_frame r0 r1 =>
    match call_frame.reg r0, call_frame.reg r1 with
    | some a, some b =>
      ⟨true, state, call_frame.push (if a = b then qfalse else qtrue)⟩
    | _, _ => ⟨false, state, call_frame⟩

end instructions

namespace interpreter

variable {σ Val : Type}

/-- The handler `interpreter::a_not_equal`.  `sem` is `instructions::a_not_equal`
and `next w` is the handler `(instructions::Instruction)w`.  The three
statements of the source in order: the semantic operation on `argument(0)` and
`argument(1)`, whose value is discarded; `next_ip` by the declared width; the
call of the entry point stored at the new instruction pointer, whose value is
returned. -/
def a_not_equal (sem : Semantics σ Val) (next : Word → Instruction σ Val) :
    Instruction σ Val :=
  fun state call_frame opcodes =>
    match argument opcodes call_frame 0 with
    | .error f => .error f
    | .ok a0 =>
      match argument opcodes call_frame 1 with
      | .error f => .error f
      | .ok a1 =>
        let r := sem state call_frame a0 a1
        let call_frame := r.frame.next_ip instructions.data_a_not_equal.width
        match fetch opcodes call_frame.ip with
        | .error f => .error f
        | .ok entry => next entry r.state call_frame opcodes

/-- The handler `interpreter::a_not_equal` with a semantic operation whose call
may raise.  The source has nothing around the call that would intercept a raise,
so a raise leaves the handler at its first statement: `next_ip` and the call of
the next entry point are not executed, and the caller of the handler finds the
context Unwinding, with the memory as the semantic operation left it.  When the
call completes, the statements are those of `a_not_equal` above. -/
def a_not_equal_unwinding (sem : RaisingSemantics σ Val) (next : Word → Instruction σ Val) :
    Instruction σ Val :=
  fun state call_frame opcodes =>
    match argument opcodes call_frame 0 with
    | .error f => .error f
    | .ok a0 =>
      match argument opcodes call_frame 1 with
      | .error f => .error f
      | .ok a1 =>
        match sem state call_frame a0 a1 with
        | .raised state1 frame1 => .ok ⟨.unwinding, state1, frame1, []⟩
        | .completed r =>
          let call_frame := r.frame.next_ip instructions.data_a_not_equal.width
          match fetch opcodes call_frame.ip with
          | .error f => .error f
          | .ok entry => next entry r.state call_frame opcodes

/-- Modelled from the spec: the handler of the return opcode is not part of the
sources at hand.  Section 4.3: it "does not advance-and-dispatch within its own
stream" and hands control back to the caller; the context is then Returning. -/
def ret : Instruction σ Val :=
  fun state call_frame _ => .ok ⟨.returning, state, call_frame, []⟩

end interpreter

/-- Modelled from the spec: the handler table (section 3) read backwards, from a
stream word to the opcode whose handler entry point the word is. -/
abbrev HandlerTable := Word → Option Opcode

/-- Declared width of an opcode, as a slot count. -/
def Opcode.width : Opcode → Nat
  | .a_not_equal => instructions.data_a_not_equal.width.toNat
  | .ret => instructions.data_ret.width.toNat
  | .other _ width _ => width

/-- Whether the opcode's handler leaves its stream instead of dispatching the
encoding that follows it. -/
def Opcode.leaves : Opcode → Bool
  | .a_not_equal => false
  | .ret => true
  | .other _ _ leaves => leaves

/-- Modelled from the spec: the cast `(instructions::Instruction)w` under a
handler table.  The bound `fuel` limits the number of handler activations of a
chain; every activation is entered in the ghost record `Exit.executed`.  The
handlers of further opcodes are not embedded: calling one is the fault
`Fault.unmodelled`. -/
def link {σ Val : Type} (tbl : HandlerTable) (sem : Semantics σ Val) :
    Nat → Word → Instruction σ Val
  | 0, _ => fun _ _ _ => .error .outOfFuel
  | fuel + 1, w => fun state call_frame opcodes =>
    match tbl w with
    | none => .error .unresolved
    | some .a_not_equal =>
      (interpreter.a_not_equal sem (link tbl sem fuel) state call_frame opcodes).map
        (Exit.ran .a_not_equal)
    | some .ret =>
      (interpreter.ret state call_frame opcodes).map (Exit.ran .ret)
    | some (.other _ _ _) => .error .unmodelled

/-- Modelled from the spec: entry of a context (section 4.3), "fetch the entry
point at slot zero of its stream and invoke it"; the slot is the one the frame's
instruction pointer addresses. -/
def enter {σ Val : Type} (tbl : HandlerTable) (sem : Semantics σ Val) (fuel : Nat) :
    Instruction σ Val :=
  fun state call_frame opcodes =>
    match fetch opcodes call_frame.ip with
    | .error f => .error f
    | .ok entry => link tbl sem fuel entry state call_frame opcodes

/-- Scan of the encodings of a stream from slot `p`: every encoding starts with
a word the table resolves to an opcode, occupies the declared width of that
opcode inside the stream, and is followed by a further encoding, except that an
opcode whose handler leaves the stream may end it.  The opcodes are those of any
instruction set, with any declared widths. -/
def scanFrom (tbl : HandlerTable) (opcodes : List Word) : Nat → Nat → Bool
  | 0, _ => false
  | fuel + 1, p =>
    match opcodes[p]? with
    | none => false
    | some w =>
      match tbl w with
      | none => false
      | some op =>
        decide (p + op.width ≤ opcodes.length) &&
          ((op.leaves && decide (p + op.width = opcodes.length)) ||
            scanFrom tbl opcodes fuel (p + op.width))

/-- A well-formed opcode stream: the scan of its encodings from slot zero
succeeds. -/
def wellFormed (tbl : HandlerTable) (opcodes : List Word) : Bool :=
  scanFrom tbl opcodes opcodes.length 0

/-- Whether slot `q` is reached from slot `p` by stepping over whole
encodings. -/
def startFrom (tbl : HandlerTable) (opcodes : List Word) : Nat → Nat → Nat → Bool
  | 0, p, q => decide (p = q)
  | fuel + 1, p, q =>
    decide (p = q) ||
      match opcodes[p]? with
      | none => false
      | some w =>
        match tbl w with
        | none => false
        | some op => startFrom tbl opcodes fuel (p + op.width) q

/-- Slot `q` is the start of an encoding of the stream. -/
def isStart (tbl : HandlerTable) (opcodes : List Word) (q : Nat) : Bool :=
  startFrom tbl opcodes opcodes.length 0 q

/-- The stream of `body.length` instructions `a_not_equal`, with the given
operand words, followed by a return opcode; `wa` and `wr` are the two entry
points. -/
def chain (wa wr : Word) : List (Word × Word) → List Word
  | [] => [wr]
  | (r0, r1) :: rest => wa :: r0 :: r1 :: chain wa wr rest

/-- A semantic operation leaves the instruction pointer unchanged. -/
def KeepsIp {σ Val : Type} (sem : Semantics σ Val) : Prop :=
  ∀ state call_frame r0 r1, (sem state call_frame r0 r1).frame.ip = call_frame.ip

/-! ## Concrete data for the examples -/

namespace Example

/-- Values of the example object model. -/
inductive Object where
  | qtrue
  | qfalse
  | fixnum (n : Int)
deriving DecidableEq

/-- Entry point words of the example: `10` is `a_not_equal`, `20` is return, and
`30` is a further opcode with one operand whose handler dispatches on. -/
def table : HandlerTable := fun w =>
  if w = 10 then some .a_not_equal
  else if w = 20 then some .ret
  else if w = 30 then some (.other 7 2 false)
  else none

/-- The modelled semantic operation on the example values. -/
def sem : Semantics Unit Object := instructions.a_not_equal .qtrue .qfalse

/-- The stream `[a_not_equal 0 1][ret]`. -/
def stream : List Word := [10, 0, 1, 20]

/-- The stream `[other 5][a_not_equal 0 1][other 6][ret]`, in which the
instruction `a_not_equal` starts at slot `2` and is followed by an instruction
of a further opcode. -/
def mixedStream : List Word := [30, 5, 10, 0, 1, 30, 6, 20]

/-- A frame at instruction pointer zero with the given registers. -/
def frame (regs : List Object) : CallFrame Object :=
  ⟨0, [], regs, 0, none, 0⟩

/-- A frame at instruction pointer `ip` with the given registers. -/
def frameAt (ip : Int) (regs : List Object) : CallFrame Object :=
  ⟨ip, [], regs, 0, none, 0⟩

end Example

/-! ## Reading the stream -/

section Lemmas

variable {σ Val : Type}

@[simp] theorem CallFrame.next_ip_ip (cf : CallFrame Val) (w : Int) :
    (cf.next_ip w).ip = cf.ip + w := rfl

theorem fetch_ok_of_bounds (opcodes : List Word) (i : Int) (h0 : 0 ≤ i)
    (h1 : i < opcodes.length) : ∃ w, fetch opcodes i = .ok w := by
  have hlt : i.toNat < opcodes.length := by omega
  refine ⟨opcodes[i.toNat], ?_⟩
  simp [fetch, h0, List.getElem?_eq_getElem hlt]

theorem fetch_natCast (opcodes : List Word) (n : Nat) (w : Word)
    (h : opcodes[n]? = some w) : fetch opcodes (n : Int) = .ok w := by
  simp [fetch, h]

/-- The handler on an input whose three stream reads are defined: its value is
the value of the entry point read at the advanced instruction pointer, called
with what the semantic operation left and with the frame advanced. -/
theorem interpreter.a_not_equal_eq (sem : Semantics σ Val) (next : Word → Instruction σ Val)
    (state : σ) (cf : CallFrame Val) (opcodes : List Word) (a0 a1 entry : Word)
    (h0 : argument opcodes cf 0 = .ok a0) (h1 : argument opcodes cf 1 = .ok a1)
    (hf : fetch opcodes ((sem state cf a0 a1).frame.ip + instructions.data_a_not_equal.width)
      = .ok entry) :
    interpreter.a_not_equal sem next state cf opcodes =
      next entry (sem state cf a0 a1).state
        ((sem state cf a0 a1).frame.next_ip instructions.data_a_not_equal.width) opcodes := by
  simp only [interpreter.a_not_equal, h0, h1, CallFrame.next_ip_ip, hf]

end Lemmas

/-! ## The handler's own steps -/

section Handler

variable {σ Val : Type}

/-- C1: with a semantic operation that leaves the instruction pointer unchanged,
on every input whose instruction and following entry slot are read inside the
stream, the call frame that `interpreter::a_not_equal` hands to the next handler
has the instruction pointer of entry plus `instructions::data_a_not_equal.width`. -/
theorem a_not_equal_advances_ip_by_width (sem : Semantics σ Val) (hsem : KeepsIp sem)
    (state : σ) (call_frame : CallFrame Val) (opcodes : List Word) (a0 a1 entry : Word)
    (h0 : argument opcodes call_frame 0 = .ok a0)
    (h1 : argument opcodes call_frame 1 = .ok a1)
    (hf : fetch opcodes (call_frame.ip + instructions.data_a_not_equal.width) = .ok entry) :
    ∃ (state1 : σ) (frame1 : CallFrame Val),
      frame1.ip = call_frame.ip + instructions.data_a_not_equal.width ∧
      ∀ next : Word → Instruction σ Val,
        interpreter.a_not_equal sem next state call_frame opcodes =
          next entry state1 frame1 opcodes := by
  refine ⟨(sem state call_frame a0 a1).state,
    (sem state call_frame a0 a1).frame.next_ip instructions.data_a_not_equal.width, ?_, ?_⟩
  · rw [CallFrame.next_ip_ip, hsem]
  · intro next
    exact interpreter.a_not_equal_eq sem next state call_frame opcodes a0 a1 entry h0 h1
      (by rw [hsem]; exact hf)

/-- C2: the value returned by `interpreter::a_not_equal` is the value returned
by the entry point stored in the stream at the advanced instruction pointer,
called with the state and the call frame as the handler's first two statements
left them and with the stream the handler received. -/
theorem a_not_equal_returns_next_entry (sem : Semantics σ Val)
    (next : Word → Instruction σ Val)
    (state : σ) (call_frame : CallFrame Val) (opcodes : List Word) (a0 a1 entry : Word)
    (h0 : argument opcodes call_frame 0 = .ok a0)
    (h1 : argument opcodes call_frame 1 = .ok a1)
    (hf : fetch opcodes
      ((sem state call_frame a0 a1).frame.next_ip instructions.data_a_not_equal.width).ip
        = .ok entry) :
    interpreter.a_not_equal sem next state call_frame opcodes =
      next entry (sem state call_frame a0 a1).state
        ((sem state call_frame a0 a1).frame.next_ip instructions.data_a_not_equal.width)
        opcodes :=
  interpreter.a_not_equal_eq sem next state call_frame opcodes a0 a1 entry h0 h1 hf

/-- On every call of the semantic operation that completes, the handler with a
call that may raise is the handler with a call that returns. -/
theorem interpreter.a_not_equal_unwinding_completed (sem : Semantics σ Val)
    (next : Word → Instruction σ Val) :
    interpreter.a_not_equal_unwinding
        (fun state call_frame r0 r1 => .completed (sem state call_frame r0 r1)) next =
      interpreter.a_not_equal sem next := by
  funext state call_frame opcodes
  simp only [interpreter.a_not_equal_unwinding, interpreter.a_not_equal]

/-- C8: the handler's own statements change the instruction pointer of the call
frame and nothing else: the next handler receives the stream the handler
received, the state the semantic operation left, and the frame the semantic
operation left with every field but the instruction pointer as it was. -/
theorem a_not_equal_writes_only_ip (sem : Semantics σ Val)
    (state : σ) (call_frame : CallFrame Val) (opcodes : List Word) (a0 a1 entry : Word)
    (h0 : argument opcodes call_frame 0 = .ok a0)
    (h1 : argument opcodes call_frame 1 = .ok a1)
    (hf : fetch opcodes
      ((sem state call_frame a0 a1).frame.ip + instructions.data_a_not_equal.width)
        = .ok entry) :
    ∃ frame1 : CallFrame Val,
      (∀ next : Word → Instruction σ Val,
        interpreter.a_not_equal sem next state call_frame opcodes =
          next entry (sem state call_frame a0 a1).state frame1 opcodes) ∧
      frame1.stack = (sem state call_frame a0 a1).frame.stack ∧
      frame1.registers = (sem state call_frame a0 a1).frame.registers ∧
      frame1.method = (sem state call_frame a0 a1).frame.method ∧
      frame1.previous = (sem state call_frame a0 a1).frame.previous ∧
      frame1.flags = (sem state call_frame a0 a1).frame.flags ∧
      frame1.ip =
        (sem state call_frame a0 a1).frame.ip + instructions.data_a_not_equal.width :=
  ⟨(sem state call_frame a0 a1).frame.next_ip instructions.data_a_not_equal.width,
    fun next =>
      interpreter.a_not_equal_eq sem next state call_frame opcodes a0 a1 entry h0 h1 hf,
    rfl, rfl, rfl, rfl, rfl, rfl⟩

/-- C10: the order of the three steps.  The semantic operation receives the call
frame of entry and the operand words of the two slots after the instruction
pointer of entry; the advance by the declared width is applied to the frame the
semantic operation left; the entry point is read at the advanced pointer. -/
theorem a_not_equal_step_order (sem : Semantics σ Val)
    (next : Word → Instruction σ Val)
    (state : σ) (call_frame : CallFrame Val) (opcodes : List Word) (a0 a1 entry : Word)
    (h0 : fetch opcodes (call_frame.ip + 1) = .ok a0)
    (h1 : fetch opcodes (call_frame.ip + 2) = .ok a1)
    (hf : fetch opcodes ((sem state call_frame a0 a1).frame.ip + 3) = .ok entry) :
    interpreter.a_not_equal sem next state call_frame opcodes =
      next entry (sem state call_frame a0 a1).state
        { (sem state call_frame a0 a1).frame with
          ip := (sem state call_frame a0 a1).frame.ip + 3 } opcodes := by
  have e0 : argument opcodes call_frame 0 = .ok a0 := by
    simpa [argument, argumentSlot] using h0
  have e1 : argument opcodes call_frame 1 = .ok a1 := by
    have : call_frame.ip + 1 + 1 = call_frame.ip + 2 := by ring
    simpa [argument, argumentSlot, this] using h1
  exact interpreter.a_not_equal_eq sem next state call_frame opcodes a0 a1 entry e0 e1 hf

end Handler

section Outcome

variable {σ Val : Type}

/-- C5: every execution of `interpreter::a_not_equal` resolves to exactly one
outcome, advance-and-dispatch.  Either one of the handler's three stream reads
(operand 0, operand 1, the entry point at the advanced pointer) is outside the
stream, which is undefined in the source, and then the handler faults with that
read's fault whatever the next handler is; or all three reads are defined and
(i) the handler's value is the value of the entry point stored at the pointer
advanced by the declared width, (ii) that transfer is the only one it makes, so
it is no jump to another target, and (iii) the handler does not itself hand an
exit (Returning or Unwinding) to its caller. -/
theorem a_not_equal_resolves_exactly_once (sem : Semantics σ Val)
    (state : σ) (call_frame : CallFrame Val) (opcodes : List Word) :
    (∃ f : Fault,
      (argument opcodes call_frame 0 = .error f ∨
        (∃ a0 : Word, argument opcodes call_frame 0 = .ok a0 ∧
          argument opcodes call_frame 1 = .error f) ∨
        (∃ a0 a1 : Word, argument opcodes call_frame 0 = .ok a0 ∧
          argument opcodes call_frame 1 = .ok a1 ∧
          fetch opcodes
            ((sem state call_frame a0 a1).frame.ip + instructions.data_a_not_equal.width)
              = .error f)) ∧
      ∀ next : Word → Instruction σ Val,
        interpreter.a_not_equal sem next state call_frame opcodes = .error f) ∨
    (∃ a0 a1 entry : Word,
      argument opcodes call_frame 0 = .ok a0 ∧
      argument opcodes call_frame 1 = .ok a1 ∧
      fetch opcodes
        ((sem state call_frame a0 a1).frame.ip + instructions.data_a_not_equal.width)
          = .ok entry ∧
      (∀ next : Word → Instruction σ Val,
        interpreter.a_not_equal sem next state call_frame opcodes =
          next entry (sem state call_frame a0 a1).state
            ((sem state call_frame a0 a1).frame.next_ip
              instructions.data_a_not_equal.width) opcodes) ∧
      (∀ (w2 : Word) (s2 : σ) (f2 : CallFrame Val) (o2 : List Word),
        (∀ next : Word → Instruction σ Val,
          interpreter.a_not_equal sem next state call_frame opcodes = next w2 s2 f2 o2) →
        w2 = entry ∧ s2 = (sem state call_frame a0 a1).state ∧
          f2 = (sem state call_frame a0 a1).frame.next_ip
            instructions.data_a_not_equal.width ∧ o2 = opcodes) ∧
      (∀ e : Exit σ Val, ¬ ∀ next : Word → Instruction σ Val,
        interpreter.a_not_equal sem next state call_frame opcodes = .ok e)) := by
  classical
  cases h0 : argument opcodes call_frame 0 with
  | error f =>
    left
    exact ⟨f, Or.inl rfl, fun next => by simp only [interpreter.a_not_equal, h0]⟩
  | ok a0 =>
    cases h1 : argument opcodes call_frame 1 with
    | error f =>
      left
      exact ⟨f, Or.inr (Or.inl ⟨a0, rfl, rfl⟩),
        fun next => by simp only [interpreter.a_not_equal, h0, h1]⟩
    | ok a1 =>
      cases hf : fetch opcodes
          ((sem state call_frame a0 a1).frame.ip + instructions.data_a_not_equal.width) with
      | error f =>
        left
        exact ⟨f, Or.inr (Or.inr ⟨a0, a1, rfl, rfl, hf⟩), fun next => by
          simp only [interpreter.a_not_equal, h0, h1, CallFrame.next_ip_ip, hf]⟩
      | ok entry =>
        right
        have key := fun next : Word → Instruction σ Val =>
          interpreter.a_not_equal_eq sem next state call_frame opcodes a0 a1 entry h0 h1 hf
        refine ⟨a0, a1, entry, rfl, rfl, hf, key, ?_, ?_⟩
        · intro w2 s2 f2 o2 h
          let probe : Word → Instruction σ Val := fun w s f o =>
            if w = entry ∧ s = (sem state call_frame a0 a1).state ∧
                f = (sem state call_frame a0 a1).frame.next_ip
                  instructions.data_a_not_equal.width ∧ o = opcodes
            then .ok ⟨.returning, s, f, []⟩ else .error .unresolved
          have hp := (key probe).symm.trans (h probe)
          by_contra hne
          simp [probe, hne] at hp
        · intro e h
          have hp := (key (fun _ _ _ _ => .error .unresolved)).symm.trans
            (h (fun _ _ _ _ => .error .unresolved))
          cases hp

/-- C9: no stream slot is used in two kinds within one execution.  With a
semantic operation that leaves the instruction pointer unchanged and the
instruction inside the stream, the two operand words are read at the slots
`argumentSlot 0` and `argumentSlot 1`, the entry point at the slot of the entry
pointer plus the declared width; the operand slots lie strictly between the
opcode slot and the entry-point slot, so they differ from both, and from each
other. -/
theorem a_not_equal_operand_slots_inside_width (sem : Semantics σ Val) (hsem : KeepsIp sem)
    (state : σ) (call_frame : CallFrame Val) (opcodes : List Word)
    (hlo : 0 ≤ call_frame.ip)
    (hhi : call_frame.ip + instructions.data_a_not_equal.width < opcodes.length) :
    ∃ a0 a1 entry : Word,
      fetch opcodes (argumentSlot call_frame 0) = .ok a0 ∧
      fetch opcodes (argumentSlot call_frame 1) = .ok a1 ∧
      fetch opcodes (call_frame.ip + instructions.data_a_not_equal.width) = .ok entry ∧
      (∀ next : Word → Instruction σ Val,
        interpreter.a_not_equal sem next state call_frame opcodes =
          next entry (sem state call_frame a0 a1).state
            ((sem state call_frame a0 a1).frame.next_ip
              instructions.data_a_not_equal.width) opcodes) ∧
      call_frame.ip < argumentSlot call_frame 0 ∧
      argumentSlot call_frame 0 < argumentSlot call_frame 1 ∧
      argumentSlot call_frame 1 < call_frame.ip + instructions.data_a_not_equal.width ∧
      argumentSlot call_frame 0 ≠ call_frame.ip + instructions.data_a_not_equal.width ∧
      argumentSlot call_frame 1 ≠ call_frame.ip + instructions.data_a_not_equal.width := by
  have hw : instructions.data_a_not_equal.width = 3 := rfl
  rw [hw] at hhi
  obtain ⟨a0, h0⟩ := fetch_ok_of_bounds opcodes (argumentSlot call_frame 0)
    (by unfold argumentSlot; omega) (by unfold argumentSlot; omega)
  obtain ⟨a1, h1⟩ := fetch_ok_of_bounds opcodes (argumentSlot call_frame 1)
    (by unfold argumentSlot; omega) (by unfold argumentSlot; omega)
  obtain ⟨entry, hf⟩ := fetch_ok_of_bounds opcodes
    (call_frame.ip + instructions.data_a_not_equal.width) (by rw [hw]; omega) (by rw [hw]; omega)
  refine ⟨a0, a1, entry, h0, h1, hf, ?_, ?_, ?_, ?_, ?_, ?_⟩
  · intro next
    exact interpreter.a_not_equal_eq sem next state call_frame opcodes a0 a1 entry h0 h1
      (by rw [hsem]; exact hf)
  all_goals (simp only [argumentSlot, hw]; omega)

end Outcome

/-! ## Chains of handlers -/

section Chains

variable {σ Val : Type}

theorem link_a_not_equal (tbl : HandlerTable) (sem : Semantics σ Val) (fuel : Nat) (w : Word)
    (hw : tbl w = some .a_not_equal) (state : σ) (cf : CallFrame Val) (opcodes : List Word) :
    link tbl sem (fuel + 1) w state cf opcodes =
      (interpreter.a_not_equal sem (link tbl sem fuel) state cf opcodes).map
        (Exit.ran .a_not_equal) := by
  simp only [link, hw]

theorem link_ret (tbl : HandlerTable) (sem : Semantics σ Val) (fuel : Nat) (w : Word)
    (hw : tbl w = some .ret) (state : σ) (cf : CallFrame Val) (opcodes : List Word) :
    link tbl sem (fuel + 1) w state cf opcodes =
      .ok ⟨.returning, state, cf, [.ret]⟩ := by
  simp only [link, hw, interpreter.ret]
  rfl

/-- After its two statements the handler, linked against a table, enters the
stream again at the advanced instruction pointer. -/
theorem a_not_equal_link_eq_enter (tbl : HandlerTable) (sem : Semantics σ Val) (fuel : Nat)
    (state : σ) (cf : CallFrame Val) (opcodes : List Word) (a0 a1 : Word)
    (h0 : argument opcodes cf 0 = .ok a0) (h1 : argument opcodes cf 1 = .ok a1) :
    interpreter.a_not_equal sem (link tbl sem fuel) state cf opcodes =
      enter tbl sem fuel (sem state cf a0 a1).state
        ((sem state cf a0 a1).frame.next_ip instructions.data_a_not_equal.width) opcodes := by
  simp only [interpreter.a_not_equal, h0, h1, enter]

theorem fetch_append (pre l : List Word) (i : Nat) (w : Word) (h : l[i]? = some w) :
    fetch (pre ++ l) ((pre.length : Int) + (i : Int)) = .ok w := by
  have e : ((pre.length : Int) + (i : Int)) = ((pre.length + i : Nat) : Int) := by
    push_cast; rfl
  rw [e]
  apply fetch_natCast
  rw [List.getElem?_append_right (by omega)]
  simpa using h

/-- The modelled semantic operation leaves the instruction pointer unchanged. -/
theorem instructions.a_not_equal_keepsIp [DecidableEq Val] (qtrue qfalse : Val) :
    KeepsIp (instructions.a_not_equal qtrue qfalse : Semantics σ Val) := by
  intro state cf r0 r1
  unfold instructions.a_not_equal
  cases cf.reg r0 <;> cases cf.reg r1 <;> rfl

/-- Dispatch through a chain of `a_not_equal` instructions placed after an
arbitrary prefix of the stream. -/
theorem enter_chain (tbl : HandlerTable) (sem : Semantics σ Val) (hsem : KeepsIp sem)
    (wa wr : Word) (hwa : tbl wa = some .a_not_equal) (hwr : tbl wr = some .ret) :
    ∀ (body : List (Word × Word)) (pre : List Word) (state : σ) (cf : CallFrame Val)
      (fuel : Nat), cf.ip = pre.length → body.length + 1 ≤ fuel →
      ∃ e : Exit σ Val, enter tbl sem fuel state cf (pre ++ chain wa wr body) = .ok e ∧
        e.status = .returning ∧
        e.frame.ip = (pre.length : Int) + 3 * (body.length : Int) ∧
        e.executed = List.replicate body.length Opcode.a_not_equal ++ [Opcode.ret] := by
  intro body
  induction body with
  | nil =>
    intro pre state cf fuel hip hfuel
    obtain ⟨n, rfl⟩ : ∃ n, fuel = n + 1 := ⟨fuel - 1, by simp at hfuel; omega⟩
    have hfe : fetch (pre ++ chain wa wr []) cf.ip = .ok wr := by
      have := fetch_append pre (chain wa wr []) 0 wr (by simp [chain])
      simpa [hip] using this
    refine ⟨⟨.returning, state, cf, [.ret]⟩, ?_, rfl, ?_, ?_⟩
    · simp only [enter, hfe]
      exact link_ret tbl sem n wr hwr state cf _
    · simp [hip]
    · simp
  | cons ab rest ih =>
    obtain ⟨r0, r1⟩ := ab
    intro pre state cf fuel hip hfuel
    obtain ⟨n, rfl⟩ : ∃ n, fuel = n + 1 := ⟨fuel - 1, by simp at hfuel; omega⟩
    have hfe : fetch (pre ++ chain wa wr ((r0, r1) :: rest)) cf.ip = .ok wa := by
      have := fetch_append pre (chain wa wr ((r0, r1) :: rest)) 0 wa (by simp [chain])
      simpa [hip] using this
    have h0 : argument (pre ++ chain wa wr ((r0, r1) :: rest)) cf 0 = .ok r0 := by
      have := fetch_append pre (chain wa wr ((r0, r1) :: rest)) 1 r0 (by simp [chain])
      simpa [argument, argumentSlot, hip] using this
    have h1 : argument (pre ++ chain wa wr ((r0, r1) :: rest)) cf 1 = .ok r1 := by
      have := fetch_append pre (chain wa wr ((r0, r1) :: rest)) 2 r1 (by simp [chain])
      have e : (pre.length : Int) + 1 + 1 = (pre.length : Int) + ((2 : Nat) : Int) := by
        push_cast; ring
      simpa [argument, argumentSlot, hip, e] using this
    have hsplit : pre ++ chain wa wr ((r0, r1) :: rest) =
        (pre ++ [wa, r0, r1]) ++ chain wa wr rest := by
      simp [chain]
    have hip2 : ((sem state cf r0 r1).frame.next_ip instructions.data_a_not_equal.width).ip
        = ((pre ++ [wa, r0, r1]).length : Int) := by
      rw [CallFrame.next_ip_ip, hsem, hip]
      simp [instructions.data_a_not_equal]
    obtain ⟨e, he, hst, hipe, hex⟩ := ih (pre ++ [wa, r0, r1]) (sem state cf r0 r1).state
      ((sem state cf r0 r1).frame.next_ip instructions.data_a_not_equal.width) n hip2
      (by simp at hfuel ⊢; omega)
    refine ⟨Exit.ran .a_not_equal e, ?_, hst, ?_, ?_⟩
    · simp only [enter, hfe]
      rw [link_a_not_equal tbl sem n wa hwa,
        a_not_equal_link_eq_enter tbl sem n state cf _ r0 r1 h0 h1, hsplit, he]
      rfl
    · show e.frame.ip = _
      rw [hipe]
      simp
      ring
    · show Opcode.a_not_equal :: e.executed = _
      rw [hex]
      simp [List.replicate_succ]

end Chains

/-! ## Well-formed streams -/

section WellFormed

variable {σ Val : Type}

theorem Opcode.width_a_not_equal : Opcode.a_not_equal.width = 3 := rfl

theorem scanFrom_succ (tbl : HandlerTable) (opcodes : List Word) (fuel p : Nat)
    (h : scanFrom tbl opcodes (fuel + 1) p = true) :
    ∃ w op, opcodes[p]? = some w ∧ tbl w = some op ∧ p + op.width ≤ opcodes.length ∧
      ((op.leaves = true ∧ p + op.width = opcodes.length) ∨
        scanFrom tbl opcodes fuel (p + op.width) = true) := by
  unfold scanFrom at h
  cases hw : opcodes[p]? with
  | none => simp [hw] at h
  | some w =>
    cases hop : tbl w with
    | none => simp [hw, hop] at h
    | some op =>
      simp only [hw, hop, Bool.and_eq_true, Bool.or_eq_true, decide_eq_true_eq] at h
      exact ⟨w, op, rfl, hop, h.1, h.2⟩

theorem scanFrom_pos (tbl : HandlerTable) (opcodes : List Word) (fuel p : Nat)
    (h : scanFrom tbl opcodes fuel p = true) : ∃ n, fuel = n + 1 := by
  cases fuel with
  | zero => simp [scanFrom] at h
  | succ n => exact ⟨n, rfl⟩

theorem startFrom_self (tbl : HandlerTable) (opcodes : List Word) (fuel p : Nat) :
    startFrom tbl opcodes fuel p p = true := by
  cases fuel <;> simp [startFrom]

theorem startFrom_outside (tbl : HandlerTable) (opcodes : List Word) (fuel p q : Nat)
    (hp : opcodes.length ≤ p) (hq : q < opcodes.length) :
    startFrom tbl opcodes fuel p q = false := by
  have hne : p ≠ q := by omega
  cases fuel with
  | zero => simp [startFrom, hne]
  | succ n =>
    have : opcodes[p]? = none := List.getElem?_eq_none hp
    simp [startFrom, hne, this]

/-- In a stream whose scan from `p` succeeds, an `a_not_equal` encoding that
starts at a slot `q` reached from `p` is followed, inside the stream, by the
start of a further encoding that lies inside the stream. -/
theorem scanFrom_after_a_not_equal (tbl : HandlerTable) (opcodes : List Word) :
    ∀ (fuel p q : Nat) (w : Word), scanFrom tbl opcodes fuel p = true →
      startFrom tbl opcodes fuel p q = true → opcodes[q]? = some w →
      tbl w = some .a_not_equal →
      startFrom tbl opcodes fuel p (q + 3) = true ∧
        ∃ w1 op1, opcodes[q + 3]? = some w1 ∧ tbl w1 = some op1 ∧
          q + 3 + op1.width ≤ opcodes.length := by
  intro fuel
  induction fuel with
  | zero => intro p q w h; simp [scanFrom] at h
  | succ n ih =>
    intro p q w hscan hstart hq hw
    obtain ⟨wp, op, hwp, hop, hfit, hrest⟩ := scanFrom_succ tbl opcodes n p hscan
    by_cases hpq : p = q
    · subst hpq
      have hwe : wp = w := by rw [hq] at hwp; exact (Option.some.inj hwp).symm
      subst hwe
      have hopa : op = .a_not_equal := by rw [hw] at hop; exact (Option.some.inj hop).symm
      subst hopa
      rw [Opcode.width_a_not_equal] at hrest
      have hnext : scanFrom tbl opcodes n (p + 3) = true := by
        rcases hrest with ⟨hl, _⟩ | h
        · cases hl
        · exact h
      obtain ⟨m, rfl⟩ := scanFrom_pos tbl opcodes n (p + 3) hnext
      obtain ⟨w1, op1, hw1, hop1, hfit1, _⟩ := scanFrom_succ tbl opcodes m (p + 3) hnext
      refine ⟨?_, w1, op1, hw1, hop1, hfit1⟩
      have hne : p ≠ p + 3 := by omega
      rw [startFrom]
      simp only [hne, decide_False, Bool.false_or, hwp, hw, Opcode.width_a_not_equal]
      exact startFrom_self tbl opcodes (m + 1) (p + 3)
    · have hqlt : q < opcodes.length := by
        by_contra hge
        rw [List.getElem?_eq_none (by omega)] at hq
        cases hq
      have hstep : startFrom tbl opcodes n (p + op.width) q = true := by
        rw [startFrom] at hstart
        simpa [hpq, hwp, hop] using hstart
      have hscan2 : scanFrom tbl opcodes n (p + op.width) = true := by
        rcases hrest with ⟨_, hend⟩ | h
        · rw [startFrom_outside tbl opcodes n (p + op.width) q (by omega) hqlt] at hstep
          cases hstep
        · exact h
      obtain ⟨hs, hex⟩ := ih (p + op.width) q w hscan2 hstep hq hw
      refine ⟨?_, hex⟩
      rw [startFrom]
      simp only [hwp, hop, hs, Bool.or_true]

end WellFormed

section Streams

variable {σ Val : Type}

theorem chain_length (wa wr : Word) (body : List (Word × Word)) :
    (chain wa wr body).length = 3 * body.length + 1 := by
  induction body with
  | nil => rfl
  | cons ab rest ih =>
    obtain ⟨r0, r1⟩ := ab
    simp only [chain, List.length_cons, ih]
    omega

theorem scanFrom_chain (tbl : HandlerTable) (wa wr : Word)
    (hwa : tbl wa = some .a_not_equal) (hwr : tbl wr = some .ret) :
    ∀ (body : List (Word × Word)) (pre : List Word) (fuel : Nat), body.length + 1 ≤ fuel →
      scanFrom tbl (pre ++ chain wa wr body) fuel pre.length = true := by
  intro body
  induction body with
  | nil =>
    intro pre fuel hfuel
    obtain ⟨n, rfl⟩ : ∃ n, fuel = n + 1 := ⟨fuel - 1, by simp at hfuel; omega⟩
    have hg : (pre ++ chain wa wr [])[pre.length]? = some wr := by
      rw [List.getElem?_append_right (le_refl _)]
      simp [chain]
    rw [scanFrom]
    simp [hg, hwr, Opcode.width, Opcode.leaves, instructions.data_ret, chain]
  | cons ab rest ih =>
    obtain ⟨r0, r1⟩ := ab
    intro pre fuel hfuel
    obtain ⟨n, rfl⟩ : ∃ n, fuel = n + 1 := ⟨fuel - 1, by simp at hfuel; omega⟩
    have hg : (pre ++ chain wa wr ((r0, r1) :: rest))[pre.length]? = some wa := by
      rw [List.getElem?_append_right (le_refl _)]
      simp [chain]
    have hsplit : pre ++ chain wa wr ((r0, r1) :: rest) =
        (pre ++ [wa, r0, r1]) ++ chain wa wr rest := by
      simp [chain]
    have hrec := ih (pre ++ [wa, r0, r1]) n (by simp at hfuel ⊢; omega)
    rw [← hsplit] at hrec
    have hlen : (pre ++ [wa, r0, r1]).length = pre.length + 3 := by simp
    rw [hlen] at hrec
    rw [scanFrom]
    simp only [hg, hwa, Opcode.width_a_not_equal, hrec, Bool.or_true, Bool.and_true,
      decide_eq_true_eq]
    simp [chain, chain_length]

/-- C4: the stream `[EQ_NOT r0 r1][RETURN ...]` entered at instruction pointer
zero, with the operand slots named `r0` and `r1` holding the values `a` and `b`:
the chain runs the handler `a_not_equal` and then the return handler, and when
the return handler hands control back the operand stack carries one more value
on top, the "false" value if `a = b` and the "true" value if `a ≠ b`. -/
theorem eq_not_then_return_pushes_result [DecidableEq Val] (qtrue qfalse : Val)
    (tbl : HandlerTable) (wa wr r0 r1 : Word) (rest : List Word)
    (hwa : tbl wa = some .a_not_equal) (hwr : tbl wr = some .ret)
    (state : σ) (call_frame : CallFrame Val) (a b : Val) (fuel : Nat)
    (hip : call_frame.ip = 0)
    (ha : call_frame.reg r0 = some a) (hb : call_frame.reg r1 = some b)
    (hfuel : 2 ≤ fuel) :
    ∃ e : Exit σ Val,
      enter tbl (instructions.a_not_equal qtrue qfalse) fuel state call_frame
        (wa :: r0 :: r1 :: wr :: rest) = .ok e ∧
      e.status = .returning ∧
      e.executed = [.a_not_equal, .ret] ∧
      (a = b → e.frame.stack = qfalse :: call_frame.stack) ∧
      (a ≠ b → e.frame.stack = qtrue :: call_frame.stack) := by
  obtain ⟨n, rfl⟩ : ∃ n, fuel = n + 2 := ⟨fuel - 2, by omega⟩
  have hfe : fetch (wa :: r0 :: r1 :: wr :: rest) call_frame.ip = .ok wa := by
    rw [hip]; rfl
  have h0 : argument (wa :: r0 :: r1 :: wr :: rest) call_frame 0 = .ok r0 := by
    simp only [argument, argumentSlot, hip]; rfl
  have h1 : argument (wa :: r0 :: r1 :: wr :: rest) call_frame 1 = .ok r1 := by
    simp only [argument, argumentSlot, hip]; rfl
  have hsem : instructions.a_not_equal qtrue qfalse state call_frame r0 r1 =
      (⟨true, state, call_frame.push (if a = b then qfalse else qtrue)⟩ : SemResult σ Val) := by
    simp only [instructions.a_not_equal, ha, hb]
  have hfe2 : fetch (wa :: r0 :: r1 :: wr :: rest)
      ((call_frame.push (if a = b then qfalse else qtrue)).next_ip
        instructions.data_a_not_equal.width).ip = .ok wr := by
    rw [CallFrame.next_ip_ip]
    show fetch _ (call_frame.ip + 3) = _
    rw [hip]
    simp [fetch]
  refine ⟨⟨.returning, state,
    (call_frame.push (if a = b then qfalse else qtrue)).next_ip
      instructions.data_a_not_equal.width, [.a_not_equal, .ret]⟩, ?_, rfl, rfl, ?_, ?_⟩
  · simp only [enter, hfe]
    rw [link_a_not_equal tbl _ (n + 1) wa hwa,
      a_not_equal_link_eq_enter tbl _ (n + 1) state call_frame _ r0 r1 h0 h1, hsem]
    simp only [enter, hfe2]
    rw [link_ret tbl _ n wr hwr]
    rfl
  · intro hab
    simp [CallFrame.next_ip, CallFrame.push, hab]
  · intro hab
    simp [CallFrame.next_ip, CallFrame.push, hab]

/-- C6: in a well-formed stream, when the instruction pointer addresses the
start of an `a_not_equal` encoding on entry and the semantic operation leaves
the pointer unchanged, the handler fetches the next entry point inside the
stream, at the start of a further encoding: a word the handler table resolves
and whose encoding lies inside the stream. -/
theorem a_not_equal_preserves_ip_invariant (tbl : HandlerTable) (sem : Semantics σ Val)
    (hsem : KeepsIp sem) (state : σ) (call_frame : CallFrame Val) (opcodes : List Word)
    (p : Nat) (w : Word)
    (hwf : wellFormed tbl opcodes = true) (hstart : isStart tbl opcodes p = true)
    (hip : call_frame.ip = p) (hw : opcodes[p]? = some w)
    (hop : tbl w = some .a_not_equal) :
    ∃ (a0 a1 entry : Word) (op1 : Opcode),
      (∀ next : Word → Instruction σ Val,
        interpreter.a_not_equal sem next state call_frame opcodes =
          next entry (sem state call_frame a0 a1).state
            ((sem state call_frame a0 a1).frame.next_ip
              instructions.data_a_not_equal.width) opcodes) ∧
      ((sem state call_frame a0 a1).frame.next_ip
        instructions.data_a_not_equal.width).ip = ((p + 3 : Nat) : Int) ∧
      fetch opcodes ((sem state call_frame a0 a1).frame.next_ip
        instructions.data_a_not_equal.width).ip = .ok entry ∧
      p + 3 < opcodes.length ∧
      isStart tbl opcodes (p + 3) = true ∧
      tbl entry = some op1 ∧
      p + 3 + op1.width ≤ opcodes.length := by
  obtain ⟨hs, w1, op1, hw1, hop1, hfit1⟩ :=
    scanFrom_after_a_not_equal tbl opcodes opcodes.length 0 p w hwf hstart hw hop
  have hlt : p + 3 < opcodes.length := by
    by_contra hge
    rw [List.getElem?_eq_none (by omega)] at hw1
    cases hw1
  have hwd : instructions.data_a_not_equal.width = 3 := rfl
  obtain ⟨a0, h0⟩ := fetch_ok_of_bounds opcodes (argumentSlot call_frame 0)
    (by unfold argumentSlot; omega) (by unfold argumentSlot; omega)
  obtain ⟨a1, h1⟩ := fetch_ok_of_bounds opcodes (argumentSlot call_frame 1)
    (by unfold argumentSlot; omega) (by unfold argumentSlot; omega)
  have hipn : ((sem state call_frame a0 a1).frame.next_ip
      instructions.data_a_not_equal.width).ip = ((p + 3 : Nat) : Int) := by
    rw [CallFrame.next_ip_ip, hsem, hip, hwd]
    push_cast; rfl
  have hf : fetch opcodes ((sem state call_frame a0 a1).frame.next_ip
      instructions.data_a_not_equal.width).ip = .ok w1 := by
    rw [hipn]
    exact fetch_natCast opcodes (p + 3) w1 hw1
  refine ⟨a0, a1, w1, op1, ?_, hipn, hf, hlt, hs, hop1, hfit1⟩
  intro next
  exact interpreter.a_not_equal_eq sem next state call_frame opcodes a0 a1 w1 h0 h1 hf

/-- C7: for the stream of `k` instructions `a_not_equal` followed by a return
opcode, which is well-formed, and a semantic operation that leaves the
instruction pointer unchanged: dispatch from entry at instruction pointer zero
hands control back under every bound of at least `k + 1` handler activations;
the context is then Returning (and so in exactly one of Returning and
Unwinding), and the handlers executed are `k` times `a_not_equal` and then the
return handler. -/
theorem chain_dispatch_terminates (tbl : HandlerTable) (sem : Semantics σ Val)
    (hsem : KeepsIp sem) (wa wr : Word)
    (hwa : tbl wa = some .a_not_equal) (hwr : tbl wr = some .ret)
    (body : List (Word × Word)) (state : σ) (call_frame : CallFrame Val) (fuel : Nat)
    (hip : call_frame.ip = 0) (hfuel : body.length + 1 ≤ fuel) :
    wellFormed tbl (chain wa wr body) = true ∧
    ∃ e : Exit σ Val,
      enter tbl sem fuel state call_frame (chain wa wr body) = .ok e ∧
      e.status = .returning ∧ e.status ≠ .unwinding ∧
      e.executed = List.replicate body.length Opcode.a_not_equal ++ [Opcode.ret] ∧
      e.executed.count Opcode.a_not_equal ≤ body.length := by
  constructor
  · have := scanFrom_chain tbl wa wr hwa hwr body [] (chain wa wr body).length
      (by rw [chain_length]; omega)
    simpa [wellFormed] using this
  · obtain ⟨e, he, hst, _, hex⟩ :=
      enter_chain tbl sem hsem wa wr hwa hwr body [] state call_frame fuel
        (by simpa using hip) hfuel
    refine ⟨e, by simpa using he, hst, by rw [hst]; decide, hex, ?_⟩
    rw [hex]
    simp [List.count_replicate]

end Streams

/-! ## The theorems at a concrete input

The stream is `[a_not_equal 0 1][ret]` with the entry points `10` and `20`, the
frame is at instruction pointer zero, and the semantic operation is the modelled
one on the example values. -/

section Concrete

open Example

theorem a_not_equal_advances_ip_by_width_witness :
    KeepsIp sem ∧
    argument stream (frame [.fixnum 1, .fixnum 2]) 0 = .ok 0 ∧
    argument stream (frame [.fixnum 1, .fixnum 2]) 1 = .ok 1 ∧
    fetch stream ((frame [.fixnum 1, .fixnum 2]).ip + instructions.data_a_not_equal.width)
      = .ok 20 ∧
    ∃ (state1 : Unit) (frame1 : CallFrame Object),
      frame1.ip = (frame [.fixnum 1, .fixnum 2]).ip + instructions.data_a_not_equal.width ∧
      ∀ next : Word → Instruction Unit Object,
        interpreter.a_not_equal sem next () (frame [.fixnum 1, .fixnum 2]) stream =
          next 20 state1 frame1 stream :=
  ⟨instructions.a_not_equal_keepsIp _ _, rfl, rfl, rfl,
    a_not_equal_advances_ip_by_width sem (instructions.a_not_equal_keepsIp _ _) ()
      (frame [.fixnum 1, .fixnum 2]) stream 0 1 20 rfl rfl rfl⟩

theorem a_not_equal_returns_next_entry_witness :
    argument stream (frame [.fixnum 1, .fixnum 2]) 0 = .ok 0 ∧
    argument stream (frame [.fixnum 1, .fixnum 2]) 1 = .ok 1 ∧
    interpreter.a_not_equal sem (link table sem 1) () (frame [.fixnum 1, .fixnum 2]) stream =
      link table sem 1 20 (sem () (frame [.fixnum 1, .fixnum 2]) 0 1).state
        ((sem () (frame [.fixnum 1, .fixnum 2]) 0 1).frame.next_ip
          instructions.data_a_not_equal.width) stream :=
  ⟨rfl, rfl,
    a_not_equal_returns_next_entry sem (link table sem 1) ()
      (frame [.fixnum 1, .fixnum 2]) stream 0 1 20 rfl rfl rfl⟩

theorem a_not_equal_resolves_exactly_once_witness :
    ∃ a0 a1 entry : Word,
      argument stream (frame [.fixnum 1, .fixnum 2]) 0 = .ok a0 ∧
      argument stream (frame [.fixnum 1, .fixnum 2]) 1 = .ok a1 ∧
      fetch stream ((sem () (frame [.fixnum 1, .fixnum 2]) a0 a1).frame.ip +
        instructions.data_a_not_equal.width) = .ok entry ∧
      (∀ next : Word → Instruction Unit Object,
        interpreter.a_not_equal sem next () (frame [.fixnum 1, .fixnum 2]) stream =
          next entry (sem () (frame [.fixnum 1, .fixnum 2]) a0 a1).state
            ((sem () (frame [.fixnum 1, .fixnum 2]) a0 a1).frame.next_ip
              instructions.data_a_not_equal.width) stream) ∧
      (∀ (w2 : Word) (s2 : Unit) (f2 : CallFrame Object) (o2 : List Word),
        (∀ next : Word → Instruction Unit Object,
          interpreter.a_not_equal sem next () (frame [.fixnum 1, .fixnum 2]) stream =
            next w2 s2 f2 o2) →
        w2 = entry ∧ s2 = (sem () (frame [.fixnum 1, .fixnum 2]) a0 a1).state ∧
          f2 = (sem () (frame [.fixnum 1, .fixnum 2]) a0 a1).frame.next_ip
            instructions.data_a_not_equal.width ∧ o2 = stream) ∧
      (∀ e : Exit Unit Object, ¬ ∀ next : Word → Instruction Unit Object,
        interpreter.a_not_equal sem next () (frame [.fixnum 1, .fixnum 2]) stream = .ok e) := by
  rcases a_not_equal_resolves_exactly_once sem () (frame [.fixnum 1, .fixnum 2]) stream with
    ⟨f, hread, _⟩ | h
  · exfalso
    have e0 : argument stream (frame [.fixnum 1, .fixnum 2]) 0 = .ok 0 := rfl
    have e1 : argument stream (frame [.fixnum 1, .fixnum 2]) 1 = .ok 1 := rfl
    rcases hread with h | ⟨a0, _, h⟩ | ⟨a0, a1, h0, h1, h⟩
    · rw [e0] at h; cases h
    · rw [e1] at h; cases h
    · rw [e0] at h0
      rw [e1] at h1
      cases h0
      cases h1
      have e2 : fetch stream ((sem () (frame [.fixnum 1, .fixnum 2]) 0 1).frame.ip +
          instructions.data_a_not_equal.width) = .ok 20 := rfl
      rw [e2] at h; cases h
  · exact h

theorem a_not_equal_writes_only_ip_witness :
    fetch stream ((sem () (frame [.fixnum 1, .fixnum 2]) 0 1).frame.ip +
      instructions.data_a_not_equal.width) = .ok 20 ∧
    ∃ frame1 : CallFrame Object,
      (∀ next : Word → Instruction Unit Object,
        interpreter.a_not_equal sem next () (frame [.fixnum 1, .fixnum 2]) stream =
          next 20 (sem () (frame [.fixnum 1, .fixnum 2]) 0 1).state frame1 stream) ∧
      frame1.stack = (sem () (frame [.fixnum 1, .fixnum 2]) 0 1).frame.stack ∧
      frame1.registers = (sem () (frame [.fixnum 1, .fixnum 2]) 0 1).frame.registers ∧
      frame1.method = (sem () (frame [.fixnum 1, .fixnum 2]) 0 1).frame.method ∧
      frame1.previous = (sem () (frame [.fixnum 1, .fixnum 2]) 0 1).frame.previous ∧
      frame1.flags = (sem () (frame [.fixnum 1, .fixnum 2]) 0 1).frame.flags ∧
      frame1.ip = (sem () (frame [.fixnum 1, .fixnum 2]) 0 1).frame.ip +
        instructions.data_a_not_equal.width :=
  ⟨rfl,
    a_not_equal_writes_only_ip sem () (frame [.fixnum 1, .fixnum 2]) stream 0 1 20
      rfl rfl rfl⟩

theorem a_not_equal_step_order_witness :
    fetch stream ((frame [.fixnum 1, .fixnum 2]).ip + 1) = .ok 0 ∧
    fetch stream ((frame [.fixnum 1, .fixnum 2]).ip + 2) = .ok 1 ∧
    interpreter.a_not_equal sem (link table sem 1) () (frame [.fixnum 1, .fixnum 2]) stream =
      link table sem 1 20 (sem () (frame [.fixnum 1, .fixnum 2]) 0 1).state
        { (sem () (frame [.fixnum 1, .fixnum 2]) 0 1).frame with
          ip := (sem () (frame [.fixnum 1, .fixnum 2]) 0 1).frame.ip + 3 } stream :=
  ⟨rfl, rfl,
    a_not_equal_step_order sem (link table sem 1) () (frame [.fixnum 1, .fixnum 2]) stream
      0 1 20 rfl rfl rfl⟩

theorem a_not_equal_operand_slots_inside_width_witness :
    (0 : Int) ≤ (frame [.fixnum 1, .fixnum 2]).ip ∧
    (frame [.fixnum 1, .fixnum 2]).ip + instructions.data_a_not_equal.width
      < (stream.length : Int) ∧
    ∃ a0 a1 entry : Word,
      fetch stream (argumentSlot (frame [.fixnum 1, .fixnum 2]) 0) = .ok a0 ∧
      fetch stream (argumentSlot (frame [.fixnum 1, .fixnum 2]) 1) = .ok a1 ∧
      fetch stream ((frame [.fixnum 1, .fixnum 2]).ip + instructions.data_a_not_equal.width)
        = .ok entry ∧
      (∀ next : Word → Instruction Unit Object,
        interpreter.a_not_equal sem next () (frame [.fixnum 1, .fixnum 2]) stream =
          next entry (sem () (frame [.fixnum 1, .fixnum 2]) a0 a1).state
            ((sem () (frame [.fixnum 1, .fixnum 2]) a0 a1).frame.next_ip
              instructions.data_a_not_equal.width) stream) ∧
      (frame [.fixnum 1, .fixnum 2]).ip < argumentSlot (frame [.fixnum 1, .fixnum 2]) 0 ∧
      argumentSlot (frame [.fixnum 1, .fixnum 2]) 0
        < argumentSlot (frame [.fixnum 1, .fixnum 2]) 1 ∧
      argumentSlot (frame [.fixnum 1, .fixnum 2]) 1
        < (frame [.fixnum 1, .fixnum 2]).ip + instructions.data_a_not_equal.width ∧
      argumentSlot (frame [.fixnum 1, .fixnum 2]) 0
        ≠ (frame [.fixnum 1, .fixnum 2]).ip + instructions.data_a_not_equal.width ∧
      argumentSlot (frame [.fixnum 1, .fixnum 2]) 1
        ≠ (frame [.fixnum 1, .fixnum 2]).ip + instructions.data_a_not_equal.width :=
  ⟨by decide, by decide,
    a_not_equal_operand_slots_inside_width sem (instructions.a_not_equal_keepsIp _ _) ()
      (frame [.fixnum 1, .fixnum 2]) stream (by decide) (by decide)⟩

theorem eq_not_then_return_pushes_result_witness :
    table 10 = some .a_not_equal ∧ table 20 = some .ret ∧
    (frame [.fixnum 1, .fixnum 2]).ip = 0 ∧
    (frame [.fixnum 1, .fixnum 2]).reg 0 = some (.fixnum 1) ∧
    (frame [.fixnum 1, .fixnum 2]).reg 1 = some (.fixnum 2) ∧
    ∃ e : Exit Unit Object,
      enter table (instructions.a_not_equal .qtrue .qfalse) 2 ()
        (frame [.fixnum 1, .fixnum 2]) [10, 0, 1, 20] = .ok e ∧
      e.status = .returning ∧
      e.executed = [.a_not_equal, .ret] ∧
      (Object.fixnum 1 = Object.fixnum 2 →
        e.frame.stack = Object.qfalse :: (frame [.fixnum 1, .fixnum 2]).stack) ∧
      (Object.fixnum 1 ≠ Object.fixnum 2 →
        e.frame.stack = Object.qtrue :: (frame [.fixnum 1, .fixnum 2]).stack) :=
  ⟨rfl, rfl, rfl, rfl, rfl,
    eq_not_then_return_pushes_result Object.qtrue Object.qfalse table 10 20 0 1 [] rfl rfl ()
      (frame [.fixnum 1, .fixnum 2]) (.fixnum 1) (.fixnum 2) 2 rfl rfl rfl (le_refl 2)⟩

theorem a_not_equal_preserves_ip_invariant_witness :
    KeepsIp sem ∧ wellFormed table mixedStream = true ∧
    isStart table mixedStream 2 = true ∧
    (frameAt 2 [.fixnum 1, .fixnum 2]).ip = ((2 : Nat) : Int) ∧
    mixedStream[2]? = some 10 ∧ table 10 = some .a_not_equal ∧
    ∃ (a0 a1 entry : Word) (op1 : Opcode),
      (∀ next : Word → Instruction Unit Object,
        interpreter.a_not_equal sem next () (frameAt 2 [.fixnum 1, .fixnum 2]) mixedStream =
          next entry (sem () (frameAt 2 [.fixnum 1, .fixnum 2]) a0 a1).state
            ((sem () (frameAt 2 [.fixnum 1, .fixnum 2]) a0 a1).frame.next_ip
              instructions.data_a_not_equal.width) mixedStream) ∧
      ((sem () (frameAt 2 [.fixnum 1, .fixnum 2]) a0 a1).frame.next_ip
        instructions.data_a_not_equal.width).ip = ((2 + 3 : Nat) : Int) ∧
      fetch mixedStream ((sem () (frameAt 2 [.fixnum 1, .fixnum 2]) a0 a1).frame.next_ip
        instructions.data_a_not_equal.width).ip = .ok entry ∧
      2 + 3 < mixedStream.length ∧
      isStart table mixedStream (2 + 3) = true ∧
      table entry = some op1 ∧
      2 + 3 + op1.width ≤ mixedStream.length :=
  ⟨instructions.a_not_equal_keepsIp _ _, by decide, by decide, rfl, rfl, rfl,
    a_not_equal_preserves_ip_invariant table sem (instructions.a_not_equal_keepsIp _ _) ()
      (frameAt 2 [.fixnum 1, .fixnum 2]) mixedStream 2 10 (by decide) (by decide)
      rfl rfl rfl⟩

theorem chain_dispatch_terminates_witness :
    KeepsIp sem ∧ table 10 = some .a_not_equal ∧ table 20 = some .ret ∧
    (frame [.fixnum 1, .fixnum 2]).ip = 0 ∧ [((0 : Word), (1 : Word))].length + 1 ≤ 2 ∧
    wellFormed table (chain 10 20 [(0, 1)]) = true ∧
    ∃ e : Exit Unit Object,
      enter table sem 2 () (frame [.fixnum 1, .fixnum 2]) (chain 10 20 [(0, 1)]) = .ok e ∧
      e.status = .returning ∧ e.status ≠ .unwinding ∧
      e.executed = List.replicate [((0 : Word), (1 : Word))].length Opcode.a_not_equal
        ++ [Opcode.ret] ∧
      e.executed.count Opcode.a_not_equal ≤ [((0 : Word), (1 : Word))].length :=
  ⟨instructions.a_not_equal_keepsIp _ _, rfl, rfl, rfl, le_refl 2,
    chain_dispatch_terminates table sem (instructions.a_not_equal_keepsIp _ _) 10 20 rfl rfl
      [(0, 1)] () (frame [.fixnum 1, .fixnum 2]) 2 rfl (le_refl 2)⟩

end Concrete

end rubinius
